import Mathlib

/- A shallow embedding of the .gox binary parser (src/parser.rs), a nom-based
   decoder for the Goxel voxel file format.  Byte inputs are lists of natural
   numbers; each nom combinator used by the source is modelled as a function
   from input to an explicit success/error result.  All loops carry a fuel
   argument that is initialised from the input length and never runs out,
   because an iteration that consumes nothing stops the loop with an error,
   exactly as nom's built-in infinite-loop checks do. -/

namespace Gox

/-- Byte strings: the parser input. -/
abbrev Input := List Nat

/-- The nom error kinds produced by the combinators this parser uses. -/
inductive ErrKind where
  | tag
  | verify
  | eof
  | many0
  | many1
  | fold
  deriving DecidableEq

/-- A parse error: the input at the failure position plus an error kind
    (nom's `Error` type for byte slices). -/
structure PError where
  input : Input
  kind : ErrKind
  deriving DecidableEq

/-- Result of a parser: leftover input and value, or an error (nom's
    `IResult`; every error this parser produces is a recoverable
    `Err::Error`, no combinator in the source uses `cut` or streaming). -/
abbrev PResult (α : Type) := Except PError (Input × α)

/-- A parser over byte input. -/
abbrev Parser (α : Type) := Input → PResult α

/-- ASCII bytes of a string literal (the source's `&str` tag literals). -/
def strBytes (s : String) : Input := s.data.map Char.toNat

/-- nom `bytes::complete::tag`: match a literal byte string. -/
def tag (t : Input) : Parser Input := fun input =>
  if input.take t.length = t then .ok (input.drop t.length, t)
  else .error ⟨input, .tag⟩

/-- nom `bytes::complete::take`: consume exactly `n` bytes (used inside
    `length_data`). -/
def takeP (n : Nat) : Parser Input := fun input =>
  if n ≤ input.length then .ok (input.drop n, input.take n)
  else .error ⟨input, .eof⟩

/-- Little-endian 32-bit word value of four bytes. -/
def leWord (b0 b1 b2 b3 : Nat) : Nat :=
  b0 + 256 * b1 + 65536 * b2 + 16777216 * b3

/-- Signed (two's complement) reinterpretation of a 32-bit word. -/
def toI32 (n : Nat) : Int :=
  if n < 2147483648 then (n : Int) else (n : Int) - 4294967296

/-- nom `number::complete::le_u32`. -/
def le_u32 : Parser Nat := fun input =>
  match input with
  | b0 :: b1 :: b2 :: b3 :: rest => .ok (rest, leWord b0 b1 b2 b3)
  | _ => .error ⟨input, .eof⟩

/-- nom `number::complete::le_i32`. -/
def le_i32 : Parser Int := fun input =>
  match input with
  | b0 :: b1 :: b2 :: b3 :: rest => .ok (rest, toI32 (leWord b0 b1 b2 b3))
  | _ => .error ⟨input, .eof⟩

/-- nom `combinator::map`. -/
def map (p : Parser α) (f : α → β) : Parser β := fun input =>
  match p input with
  | .error e => .error e
  | .ok (i1, a) => .ok (i1, f a)

/-- nom `combinator::verify`. -/
def verify (p : Parser α) (f : α → Bool) : Parser α := fun input =>
  match p input with
  | .error e => .error e
  | .ok (i1, a) => if f a then .ok (i1, a) else .error ⟨input, .verify⟩

/-- nom `sequence::preceded`. -/
def preceded (p : Parser α) (q : Parser β) : Parser β := fun input =>
  match p input with
  | .error e => .error e
  | .ok (i1, _) => q i1

/-- nom `sequence::terminated`. -/
def terminated (p : Parser α) (q : Parser β) : Parser α := fun input =>
  match p input with
  | .error e => .error e
  | .ok (i1, a) =>
    match q i1 with
    | .error e => .error e
    | .ok (i2, _) => .ok (i2, a)

/-- nom `sequence::tuple` for two parsers; the source's longer tuples are
    modelled as right-nested pairs of these. -/
def tuple2 (p : Parser α) (q : Parser β) : Parser (α × β) := fun input =>
  match p input with
  | .error e => .error e
  | .ok (i1, a) =>
    match q i1 with
    | .error e => .error e
    | .ok (i2, b) => .ok (i2, (a, b))

/-- nom `multi::length_data`: a length field followed by that many bytes. -/
def length_data (p : Parser Nat) : Parser Input := fun input =>
  match p input with
  | .error e => .error e
  | .ok (i1, n) => takeP n i1

/-- Apply a parser a fixed number of times (the loop of `length_count`). -/
def countGo (p : Parser α) : Nat → Parser (List α)
  | 0 => fun input => .ok (input, [])
  | n + 1 => fun input =>
    match p input with
    | .error e => .error e
    | .ok (i1, a) =>
      match countGo p n i1 with
      | .error e => .error e
      | .ok (i2, rest) => .ok (i2, a :: rest)

/-- nom `multi::length_count`: a count field followed by that many items. -/
def length_count (p : Parser Nat) (q : Parser α) : Parser (List α) := fun input =>
  match p input with
  | .error e => .error e
  | .ok (i1, n) => countGo q n i1

/-- Loop of nom `multi::fold_many1`: repeat `f`, folding results with `g`,
    stopping (successfully) at the first failure without consuming the bytes
    of the failed attempt.  An iteration that consumes nothing aborts with an
    error, as nom's check does, so fuel of `length + 1` can never run out. -/
def foldMany1Go (f : Parser α) (g : β → α → β) : Nat → Input → β → PResult β
  | 0, input, _ => .error ⟨input, .fold⟩
  | fuel + 1, input, acc =>
    match f input with
    | .error _ => .ok (input, acc)
    | .ok (i1, a) =>
      if i1.length < input.length then foldMany1Go f g fuel i1 (g acc a)
      else .error ⟨i1, .fold⟩

/-- nom `multi::fold_many1`: fails if the very first application of `f`
    fails, then folds until the first subsequent failure. -/
def fold_many1 (f : Parser α) (init : β) (g : β → α → β) : Parser β := fun input =>
  match f input with
  | .error _ => .error ⟨input, .many1⟩
  | .ok (i1, a) => foldMany1Go f g (input.length + 1) i1 (g init a)

/-- Loop of nom `multi::many0` (same fuel discipline as `foldMany1Go`). -/
def many0Go (f : Parser α) : Nat → Input → PResult (List α)
  | 0, input => .error ⟨input, .many0⟩
  | fuel + 1, input =>
    match f input with
    | .error _ => .ok (input, [])
    | .ok (i1, a) =>
      if i1.length < input.length then
        match many0Go f fuel i1 with
        | .error e => .error e
        | .ok (i2, rest) => .ok (i2, a :: rest)
      else .error ⟨input, .many0⟩

/-- nom `multi::many0`: repeat until the first failure, which is normal
    termination, never an error. -/
def many0 (f : Parser α) : Parser (List α) := fun input =>
  many0Go f (input.length + 1) input

/-- nom `branch::alt` for two branches; the source's six-way `alt` is a
    right-nested chain of these (nom keeps the last branch's error). -/
def alt2 (p q : Parser α) : Parser α := fun input =>
  match p input with
  | .ok r => .ok r
  | .error _ => q input

/-! ## The data model (structs `Goxel`, `Block`, enum `Chunk`) -/

/-- `struct Block`: a placed block reference inside a layer. -/
structure Block where
  index : Int
  x : Int
  y : Int
  z : Int
  deriving DecidableEq

/-- `HashMap<String, Vec<u8>>`, modelled as an insertion-ordered association
    list whose `insert` overwrites an existing key in place. -/
abbrev Dict := List (String × Input)

/-- `HashMap::insert`: last write wins on a duplicate key. -/
def dinsert (m : Dict) (k : String) (v : Input) : Dict :=
  if m.any (fun p => p.1 == k) then
    m.map (fun p => if p.1 == k then (k, v) else p)
  else m ++ [(k, v)]

/-- `enum Chunk`: the six chunk kinds. -/
inductive Chunk where
  | img (dict : Dict)
  | prev (data : Input)
  | bl16 (data : Input)
  | layr (blocks : List Block) (dict : Dict)
  | camr (dict : Dict)
  | ligh (dict : Dict)
  deriving DecidableEq

/-- `struct Goxel`: the decoded document. -/
structure Goxel where
  version : Int
  chunks : List Chunk
  deriving DecidableEq

/-! ## `String::from_utf8_lossy` -/

/-- The replacement character U+FFFD used by `String::from_utf8_lossy`. -/
def replChar : Char := Char.ofNat 0xFFFD

/-- UTF-8 continuation byte test (0x80-0xBF). -/
def isCont (b : Nat) : Bool := 0x80 ≤ b && b ≤ 0xBF

/-- Allowed first continuation byte of a three-byte sequence (excludes
    overlong encodings and surrogates). -/
def cont3 (b c : Nat) : Bool :=
  if b = 0xE0 then 0xA0 ≤ c && c ≤ 0xBF
  else if b = 0xED then 0x80 ≤ c && c ≤ 0x9F
  else isCont c

/-- Allowed first continuation byte of a four-byte sequence (excludes
    overlong encodings and values above U+10FFFF). -/
def cont4 (b c : Nat) : Bool :=
  if b = 0xF0 then 0x90 ≤ c && c ≤ 0xBF
  else if b = 0xF4 then 0x80 ≤ c && c ≤ 0x8F
  else isCont c

/-- UTF-8 decoding with U+FFFD substitution of maximal subparts, following
    `String::from_utf8_lossy`. -/
def utf8Lossy : Input → List Char
  | [] => []
  | b :: bs =>
    if b < 0x80 then Char.ofNat b :: utf8Lossy bs
    else if 0xC2 ≤ b && b ≤ 0xDF then
      match bs with
      | [] => [replChar]
      | c1 :: bs1 =>
        if isCont c1 then
          Char.ofNat ((b - 0xC0) * 64 + (c1 - 0x80)) :: utf8Lossy bs1
        else replChar :: utf8Lossy (c1 :: bs1)
    else if 0xE0 ≤ b && b ≤ 0xEF then
      match bs with
      | [] => [replChar]
      | c1 :: bs1 =>
        if cont3 b c1 then
          match bs1 with
          | [] => [replChar]
          | c2 :: bs2 =>
            if isCont c2 then
              Char.ofNat ((b - 0xE0) * 4096 + (c1 - 0x80) * 64 + (c2 - 0x80)) ::
                utf8Lossy bs2
            else replChar :: utf8Lossy (c2 :: bs2)
        else replChar :: utf8Lossy (c1 :: bs1)
    else if 0xF0 ≤ b && b ≤ 0xF4 then
      match bs with
      | [] => [replChar]
      | c1 :: bs1 =>
        if cont4 b c1 then
          match bs1 with
          | [] => [replChar]
          | c2 :: bs2 =>
            if isCont c2 then
              match bs2 with
              | [] => [replChar]
              | c3 :: bs3 =>
                if isCont c3 then
                  Char.ofNat ((b - 0xF0) * 262144 + (c1 - 0x80) * 4096 +
                      (c2 - 0x80) * 64 + (c3 - 0x80)) :: utf8Lossy bs3
                else replChar :: utf8Lossy (c3 :: bs3)
            else replChar :: utf8Lossy (c2 :: bs2)
        else replChar :: utf8Lossy (c1 :: bs1)
    else replChar :: utf8Lossy bs

/-- `String::from_utf8_lossy(bytes).to_string()`. -/
def from_utf8_lossy (bs : Input) : String := String.mk (utf8Lossy bs)

/-! ## The parsers of src/parser.rs -/

/-- `fn entry`: one key/value pair; the key length must be non-zero. -/
def entry : Parser (String × Input) :=
  map
    (tuple2
      (length_data (verify le_u32 (fun n => n != 0)))
      (length_data le_u32))
    (fun kv => (from_utf8_lossy kv.1, kv.2))

/-- `fn dict`: at least one entry, folded into a map until the first
    failing entry attempt. -/
def dict : Parser Dict :=
  fold_many1 entry [] (fun m kv => dinsert m kv.1 kv.2)

/-- `fn chunk_common`: the common chunk framing, a 4-byte ASCII tag before
    the body and a trailing (ignored) 4-byte CRC field after it. -/
def chunk_common (name : Input) (p : Parser Chunk) : Parser Chunk :=
  terminated (preceded (tag name) p) le_u32

/-- `fn img`. -/
def img : Parser Chunk :=
  chunk_common (strBytes "IMG ")
    (map (preceded le_u32 dict) (fun d => Chunk.img d))

/-- `fn prev`. -/
def prev : Parser Chunk :=
  chunk_common (strBytes "PREV")
    (map (length_data le_u32) (fun d => Chunk.prev d))

/-- `fn bl16`. -/
def bl16 : Parser Chunk :=
  chunk_common (strBytes "BL16")
    (map (length_data le_u32) (fun d => Chunk.bl16 d))

/-- `fn block`: five little-endian i32 fields, the fifth discarded. -/
def block : Parser Block :=
  map (tuple2 le_i32 (tuple2 le_i32 (tuple2 le_i32 (tuple2 le_i32 le_i32))))
    (fun t => ⟨t.1, t.2.1, t.2.2.1, t.2.2.2.1⟩)

/-- `fn layr`. -/
def layr : Parser Chunk :=
  chunk_common (strBytes "LAYR")
    (map (preceded le_u32 (tuple2 (length_count le_u32 block) dict))
      (fun bd => Chunk.layr bd.1 bd.2))

/-- `fn camr`. -/
def camr : Parser Chunk :=
  chunk_common (strBytes "CAMR")
    (map (preceded le_u32 dict) (fun d => Chunk.camr d))

/-- `fn ligh`. -/
def ligh : Parser Chunk :=
  chunk_common (strBytes "LIGH")
    (map (preceded le_u32 dict) (fun d => Chunk.ligh d))

/-- `fn chunk`: first matching chunk kind wins. -/
def chunk : Parser Chunk :=
  alt2 img (alt2 prev (alt2 bl16 (alt2 layr (alt2 camr ligh))))

/-- `fn parse`: the whole document. -/
def parse : Parser Goxel :=
  map (preceded (tag (strBytes "GOX ")) (tuple2 le_i32 (many0 chunk)))
    (fun vc => ⟨vc.1, vc.2⟩)

example : strBytes "GOX " = [71, 79, 88, 32] := rfl
example : strBytes "IMG " = [73, 77, 71, 32] := rfl
example : from_utf8_lossy [65] = "A" := rfl

/-! ## Shape lemmas for the primitive parsers -/

theorem le_u32_ok {input rest : Input} {n : Nat}
    (h : le_u32 input = .ok (rest, n)) :
    ∃ b0 b1 b2 b3, input = b0 :: b1 :: b2 :: b3 :: rest ∧ n = leWord b0 b1 b2 b3 := by
  rcases input with _ | ⟨b0, _ | ⟨b1, _ | ⟨b2, _ | ⟨b3, t⟩⟩⟩⟩ <;>
    simp only [le_u32, Except.ok.injEq, Prod.mk.injEq, reduceCtorEq] at h
  obtain ⟨rfl, rfl⟩ := h
  exact ⟨b0, b1, b2, b3, rfl, rfl⟩

theorem le_u32_err {input : Input} (h : input.length < 4) :
    le_u32 input = .error ⟨input, .eof⟩ := by
  rcases input with _ | ⟨b0, _ | ⟨b1, _ | ⟨b2, _ | ⟨b3, t⟩⟩⟩⟩ <;>
    first
      | rfl
      | (simp only [List.length_cons, List.length_nil] at h; omega)

theorem le_i32_ok {input rest : Input} {v : Int}
    (h : le_i32 input = .ok (rest, v)) :
    ∃ b0 b1 b2 b3, input = b0 :: b1 :: b2 :: b3 :: rest ∧
      v = toI32 (leWord b0 b1 b2 b3) := by
  rcases input with _ | ⟨b0, _ | ⟨b1, _ | ⟨b2, _ | ⟨b3, t⟩⟩⟩⟩ <;>
    simp only [le_i32, Except.ok.injEq, Prod.mk.injEq, reduceCtorEq] at h
  obtain ⟨rfl, rfl⟩ := h
  exact ⟨b0, b1, b2, b3, rfl, rfl⟩

theorem le_i32_err {input : Input} (h : input.length < 4) :
    le_i32 input = .error ⟨input, .eof⟩ := by
  rcases input with _ | ⟨b0, _ | ⟨b1, _ | ⟨b2, _ | ⟨b3, t⟩⟩⟩⟩ <;>
    first
      | rfl
      | (simp only [List.length_cons, List.length_nil] at h; omega)

theorem takeP_ok {n : Nat} {input rest d : Input}
    (h : takeP n input = .ok (rest, d)) :
    n ≤ input.length ∧ rest = input.drop n ∧ d = input.take n := by
  unfold takeP at h
  split at h
  · simp only [Except.ok.injEq, Prod.mk.injEq] at h
    exact ⟨by assumption, h.1.symm, h.2.symm⟩
  · cases h

theorem takeP_err {n : Nat} {input : Input} (h : input.length < n) :
    takeP n input = .error ⟨input, .eof⟩ := by
  unfold takeP
  rw [if_neg (by omega)]

/-! ## Every parser only advances the cursor: leftovers are suffixes -/

/-- A parser whose successful leftover is always a suffix of its input,
    i.e. it only consumes from the front and never reads outside the
    supplied buffer. -/
def SuffixSafe (p : Parser α) : Prop :=
  ∀ input rest a, p input = .ok (rest, a) → rest <:+ input

theorem tag_ss (t : Input) : SuffixSafe (tag t) := by
  intro input rest a h
  unfold tag at h
  split at h
  · simp only [Except.ok.injEq, Prod.mk.injEq] at h
    rw [← h.1]
    exact List.drop_suffix _ _
  · cases h

theorem takeP_ss (n : Nat) : SuffixSafe (takeP n) := by
  intro input rest a h
  rw [(takeP_ok h).2.1]
  exact List.drop_suffix _ _

theorem le_u32_ss : SuffixSafe le_u32 := by
  intro input rest a h
  obtain ⟨b0, b1, b2, b3, rfl, -⟩ := le_u32_ok h
  exact ⟨[b0, b1, b2, b3], rfl⟩

theorem le_i32_ss : SuffixSafe le_i32 := by
  intro input rest a h
  obtain ⟨b0, b1, b2, b3, rfl, -⟩ := le_i32_ok h
  exact ⟨[b0, b1, b2, b3], rfl⟩

theorem map_ss {p : Parser α} (hp : SuffixSafe p) (f : α → β) :
    SuffixSafe (map p f) := by
  intro input rest a h
  unfold map at h
  rcases hpi : p input with e | ⟨i1, a1⟩ <;> simp only [hpi] at h
  · cases h
  · simp only [Except.ok.injEq, Prod.mk.injEq] at h
    rw [← h.1]
    exact hp input i1 a1 hpi

theorem verify_ss {p : Parser α} (hp : SuffixSafe p) (f : α → Bool) :
    SuffixSafe (verify p f) := by
  intro input rest a h
  unfold verify at h
  rcases hpi : p input with e | ⟨i1, a1⟩ <;> simp only [hpi] at h
  · cases h
  · split at h
    · simp only [Except.ok.injEq, Prod.mk.injEq] at h
      rw [← h.1]
      exact hp input i1 a1 hpi
    · cases h

theorem preceded_ss {p : Parser α} {q : Parser β}
    (hp : SuffixSafe p) (hq : SuffixSafe q) : SuffixSafe (preceded p q) := by
  intro input rest a h
  unfold preceded at h
  rcases hpi : p input with e | ⟨i1, a1⟩ <;> simp only [hpi] at h
  · cases h
  · exact (hq i1 rest a h).trans (hp input i1 a1 hpi)

theorem terminated_ss {p : Parser α} {q : Parser β}
    (hp : SuffixSafe p) (hq : SuffixSafe q) : SuffixSafe (terminated p q) := by
  intro input rest a h
  unfold terminated at h
  rcases hpi : p input with e | ⟨i1, a1⟩ <;> simp only [hpi] at h
  · cases h
  · rcases hqi : q i1 with e | ⟨i2, b1⟩ <;> simp only [hqi] at h
    · cases h
    · simp only [Except.ok.injEq, Prod.mk.injEq] at h
      rw [← h.1]
      exact (hq i1 i2 b1 hqi).trans (hp input i1 a1 hpi)

theorem tuple2_ss {p : Parser α} {q : Parser β}
    (hp : SuffixSafe p) (hq : SuffixSafe q) : SuffixSafe (tuple2 p q) := by
  intro input rest a h
  unfold tuple2 at h
  rcases hpi : p input with e | ⟨i1, a1⟩ <;> simp only [hpi] at h
  · cases h
  · rcases hqi : q i1 with e | ⟨i2, b1⟩ <;> simp only [hqi] at h
    · cases h
    · simp only [Except.ok.injEq, Prod.mk.injEq] at h
      rw [← h.1]
      exact (hq i1 i2 b1 hqi).trans (hp input i1 a1 hpi)

theorem length_data_ss {p : Parser Nat} (hp : SuffixSafe p) :
    SuffixSafe (length_data p) := by
  intro input rest a h
  unfold length_data at h
  rcases hpi : p input with e | ⟨i1, n⟩ <;> simp only [hpi] at h
  · cases h
  · exact (takeP_ss n i1 rest a h).trans (hp input i1 n hpi)

theorem countGo_ss {p : Parser α} (hp : SuffixSafe p) (n : Nat) :
    SuffixSafe (countGo p n) := by
  induction n with
  | zero =>
    intro input rest a h
    simp only [countGo, Except.ok.injEq, Prod.mk.injEq] at h
    rw [← h.1]
  | succ n ih =>
    intro input rest a h
    simp only [countGo] at h
    rcases hpi : p input with e | ⟨i1, a1⟩ <;> simp only [hpi] at h
    · cases h
    · rcases hci : countGo p n i1 with e | ⟨i2, rest2⟩ <;> simp only [hci] at h
      · cases h
      · simp only [Except.ok.injEq, Prod.mk.injEq] at h
        rw [← h.1]
        exact (ih i1 i2 rest2 hci).trans (hp input i1 a1 hpi)

theorem length_count_ss {p : Parser Nat} {q : Parser α}
    (hp : SuffixSafe p) (hq : SuffixSafe q) : SuffixSafe (length_count p q) := by
  intro input rest a h
  unfold length_count at h
  rcases hpi : p input with e | ⟨i1, n⟩ <;> simp only [hpi] at h
  · cases h
  · exact (countGo_ss hq n i1 rest a h).trans (hp input i1 n hpi)

theorem foldMany1Go_ss {f : Parser α} {g : β → α → β} (hf : SuffixSafe f)
    (fuel : Nat) :
    ∀ input acc rest m, foldMany1Go f g fuel input acc = .ok (rest, m) →
      rest <:+ input := by
  induction fuel with
  | zero => intro input acc rest m h; cases h
  | succ fuel ih =>
    intro input acc rest m h
    simp only [foldMany1Go] at h
    rcases hfi : f input with e | ⟨i1, a1⟩ <;> simp only [hfi] at h
    · simp only [Except.ok.injEq, Prod.mk.injEq] at h
      rw [← h.1]
    · split at h
      · exact (ih i1 _ rest m h).trans (hf input i1 a1 hfi)
      · cases h

theorem fold_many1_ss {f : Parser α} {g : β → α → β} (hf : SuffixSafe f)
    (init : β) : SuffixSafe (fold_many1 f init g) := by
  intro input rest a h
  unfold fold_many1 at h
  rcases hfi : f input with e | ⟨i1, a1⟩ <;> simp only [hfi] at h
  · cases h
  · exact (foldMany1Go_ss hf _ i1 _ rest a h).trans (hf input i1 a1 hfi)

theorem many0Go_ss {f : Parser α} (hf : SuffixSafe f) (fuel : Nat) :
    ∀ input rest m, many0Go f fuel input = .ok (rest, m) → rest <:+ input := by
  induction fuel with
  | zero => intro input rest m h; cases h
  | succ fuel ih =>
    intro input rest m h
    simp only [many0Go] at h
    rcases hfi : f input with e | ⟨i1, a1⟩ <;> simp only [hfi] at h
    · simp only [Except.ok.injEq, Prod.mk.injEq] at h
      rw [← h.1]
    · split at h
      · rcases hmi : many0Go f fuel i1 with e | ⟨i2, rest2⟩ <;>
          simp only [hmi] at h
        · cases h
        · simp only [Except.ok.injEq, Prod.mk.injEq] at h
          rw [← h.1]
          exact (ih i1 i2 rest2 hmi).trans (hf input i1 a1 hfi)
      · cases h

theorem many0_ss {f : Parser α} (hf : SuffixSafe f) : SuffixSafe (many0 f) :=
  fun input rest m h => many0Go_ss hf _ input rest m h

theorem alt2_ss {p q : Parser α} (hp : SuffixSafe p) (hq : SuffixSafe q) :
    SuffixSafe (alt2 p q) := by
  intro input rest a h
  unfold alt2 at h
  rcases hpi : p input with e | ⟨i1, a1⟩ <;> simp only [hpi] at h
  · exact hq input rest a h
  · simp only [Except.ok.injEq, Prod.mk.injEq] at h
    rw [← h.1]
    exact hp input i1 a1 hpi

theorem entry_ss : SuffixSafe entry :=
  map_ss (tuple2_ss (length_data_ss (verify_ss le_u32_ss _))
    (length_data_ss le_u32_ss)) _

theorem dict_ss : SuffixSafe dict := fold_many1_ss entry_ss _

theorem block_ss : SuffixSafe block :=
  map_ss (tuple2_ss le_i32_ss (tuple2_ss le_i32_ss
    (tuple2_ss le_i32_ss (tuple2_ss le_i32_ss le_i32_ss)))) _

theorem chunk_common_ss {p : Parser Chunk} (name : Input) (hp : SuffixSafe p) :
    SuffixSafe (chunk_common name p) :=
  terminated_ss (preceded_ss (tag_ss name) hp) le_u32_ss

theorem img_ss : SuffixSafe img :=
  chunk_common_ss _ (map_ss (preceded_ss le_u32_ss dict_ss) _)

theorem prev_ss : SuffixSafe prev :=
  chunk_common_ss _ (map_ss (length_data_ss le_u32_ss) _)

theorem bl16_ss : SuffixSafe bl16 :=
  chunk_common_ss _ (map_ss (length_data_ss le_u32_ss) _)

theorem layr_ss : SuffixSafe layr :=
  chunk_common_ss _ (map_ss (preceded_ss le_u32_ss
    (tuple2_ss (length_count_ss le_u32_ss block_ss) dict_ss)) _)

theorem camr_ss : SuffixSafe camr :=
  chunk_common_ss _ (map_ss (preceded_ss le_u32_ss dict_ss) _)

theorem ligh_ss : SuffixSafe ligh :=
  chunk_common_ss _ (map_ss (preceded_ss le_u32_ss dict_ss) _)

theorem chunk_ss : SuffixSafe chunk :=
  alt2_ss img_ss (alt2_ss prev_ss (alt2_ss bl16_ss
    (alt2_ss layr_ss (alt2_ss camr_ss ligh_ss))))

theorem parse_ss : SuffixSafe parse :=
  map_ss (preceded_ss (tag_ss _) (tuple2_ss le_i32_ss (many0_ss chunk_ss))) _

example :
    img [73, 77, 71, 32, 9, 0, 0, 0, 1, 0, 0, 0, 65, 0, 0, 0, 0, 0, 0, 0, 0] =
      .ok ([], Chunk.img [("A", [])]) := rfl

example :
    parse (strBytes "GOX " ++ [5, 0, 0, 0]) = .ok ([], ⟨5, []⟩) := rfl

/-! ## Behaviour of the chunk loop -/

theorem many0Go_err {f : Parser α} {input : Input} {e : PError} (fuel : Nat)
    (h : f input = .error e) : many0Go f (fuel + 1) input = .ok (input, []) := by
  simp only [many0Go, h]

/-- A failing first iteration is normal termination for `many0`: it succeeds
    with an empty list, consuming nothing. -/
theorem many0_err {f : Parser α} {input : Input} {e : PError}
    (h : f input = .error e) : many0 f input = .ok (input, []) :=
  many0Go_err _ h

theorem tag_err {t input : Input} (h : input.take t.length ≠ t) :
    tag t input = .error ⟨input, .tag⟩ := by
  unfold tag
  rw [if_neg h]

theorem tag_ok_append (t x : Input) : tag t (t ++ x) = .ok (x, t) := by
  unfold tag
  rw [List.take_left, if_pos rfl, List.drop_left]

theorem chunk_common_tag_err {name : Input} {p : Parser Chunk} {input : Input}
    (h : input.take name.length ≠ name) :
    chunk_common name p input = .error ⟨input, .tag⟩ := by
  unfold chunk_common terminated preceded
  simp only [tag_err h]

/-- No chunk kind's 4-byte tag matches the front of `input`. -/
def NoKnownTag (input : Input) : Prop :=
  input.take 4 ≠ strBytes "IMG " ∧ input.take 4 ≠ strBytes "PREV" ∧
  input.take 4 ≠ strBytes "BL16" ∧ input.take 4 ≠ strBytes "LAYR" ∧
  input.take 4 ≠ strBytes "CAMR" ∧ input.take 4 ≠ strBytes "LIGH"

instance (input : Input) : Decidable (NoKnownTag input) := by
  unfold NoKnownTag
  infer_instance

theorem chunk_err_of_noTag {input : Input} (h : NoKnownTag input) :
    chunk input = .error ⟨input, .tag⟩ := by
  obtain ⟨h1, h2, h3, h4, h5, h6⟩ := h
  have e1 : img input = .error ⟨input, .tag⟩ := by
    unfold img; exact chunk_common_tag_err h1
  have e2 : prev input = .error ⟨input, .tag⟩ := by
    unfold prev; exact chunk_common_tag_err h2
  have e3 : bl16 input = .error ⟨input, .tag⟩ := by
    unfold bl16; exact chunk_common_tag_err h3
  have e4 : layr input = .error ⟨input, .tag⟩ := by
    unfold layr; exact chunk_common_tag_err h4
  have e5 : camr input = .error ⟨input, .tag⟩ := by
    unfold camr; exact chunk_common_tag_err h5
  have e6 : ligh input = .error ⟨input, .tag⟩ := by
    unfold ligh; exact chunk_common_tag_err h6
  simp only [chunk, alt2, e1, e2, e3, e4, e5, e6]

/-- After a matched magic and version, a failing chunk attempt ends the loop
    and the whole parse succeeds with the chunks accumulated so far. -/
theorem parse_gox (v0 v1 v2 v3 : Nat) (rest : Input) {e : PError}
    (h : chunk rest = .error e) :
    parse (strBytes "GOX " ++ [v0, v1, v2, v3] ++ rest) =
      .ok (rest, { version := toI32 (leWord v0 v1 v2 v3), chunks := [] }) := by
  rw [List.append_assoc]
  simp only [parse, map, preceded, tuple2, tag_ok_append,
    show le_i32 ([v0, v1, v2, v3] ++ rest) =
      .ok (rest, toI32 (leWord v0 v1 v2 v3)) from rfl,
    many0_err h]

/-! ## Claim C1 -/

/-- A document whose second chunk has a matching `IMG ` tag but a failing
    body (the dictionary starts with a zero key length). -/
def c1Input : Input :=
  strBytes "GOX " ++ [0, 0, 0, 0] ++ strBytes "PREV" ++ [2, 0, 0, 0] ++
    [170, 187] ++ [0, 0, 0, 0] ++ strBytes "IMG " ++ [0, 0, 0, 0] ++ [0, 0, 0, 0]

/-- C1 (counterexample): on an input whose chunk tag `IMG ` matches but whose
    body decoder then fails, the whole document decode does NOT fail: it
    succeeds, returning the partial chunk list decoded so far and leaving the
    failed chunk's bytes unconsumed, contrary to the claim that such a body
    failure is a hard decode error for the whole document. -/
theorem c1_counterexample :
    parse c1Input =
      .ok (strBytes "IMG " ++ [0, 0, 0, 0] ++ [0, 0, 0, 0],
        { version := 0, chunks := [Chunk.prev [170, 187]] }) := rfl

/-- C1 (amended): when a chunk attempt fails — including the case where a
    known tag matched but the body decoder or checksum read then failed —
    the chunk parser reports a recoverable error consuming nothing, the
    document loop treats it as normal termination, and the document decode
    succeeds with the chunks decoded so far, the failed chunk's bytes left
    unconsumed. -/
theorem c1_amended (v0 v1 v2 v3 : Nat) (rest : Input) (e : PError)
    (h : chunk rest = .error e) :
    parse (strBytes "GOX " ++ [v0, v1, v2, v3] ++ rest) =
      .ok (rest, { version := toI32 (leWord v0 v1 v2 v3), chunks := [] }) :=
  parse_gox v0 v1 v2 v3 rest h

/-- C1 (witness): the amended statement applied at a concrete input whose
    chunk body fails after its `IMG ` tag matched. -/
theorem c1_amended_witness :
    chunk (strBytes "IMG " ++ [0, 0, 0, 0] ++ [0, 0, 0, 0]) =
      .error ⟨strBytes "IMG " ++ [0, 0, 0, 0] ++ [0, 0, 0, 0], .tag⟩ ∧
    parse (strBytes "GOX " ++ [0, 0, 0, 0] ++
        (strBytes "IMG " ++ [0, 0, 0, 0] ++ [0, 0, 0, 0])) =
      .ok (strBytes "IMG " ++ [0, 0, 0, 0] ++ [0, 0, 0, 0],
        { version := toI32 (leWord 0 0 0 0), chunks := [] }) :=
  ⟨rfl, c1_amended 0 0 0 0 _ _ rfl⟩

/-! ## Claim C4 -/

/-- C4: starting from a well-formed header, whenever the remaining bytes
    begin with a 4-byte sequence matching none of the six tags (or are too
    short to contain one), the chunk loop stops successfully, consuming
    nothing further, and the top-level parse succeeds with the chunks decoded
    so far and the unmatched trailing bytes left unconsumed. -/
theorem c4_unknown_tag_stops (v0 v1 v2 v3 : Nat) (rest : Input)
    (h : NoKnownTag rest) :
    many0 chunk rest = .ok (rest, []) ∧
    parse (strBytes "GOX " ++ [v0, v1, v2, v3] ++ rest) =
      .ok (rest, { version := toI32 (leWord v0 v1 v2 v3), chunks := [] }) := by
  have hc := chunk_err_of_noTag h
  exact ⟨many0_err hc, parse_gox v0 v1 v2 v3 rest hc⟩

/-- C4 (witness): concrete trailing garbage after the header is ignored. -/
theorem c4_witness :
    many0 chunk [0, 0, 0, 0] = .ok ([0, 0, 0, 0], []) ∧
    parse (strBytes "GOX " ++ [7, 0, 0, 0] ++ [0, 0, 0, 0]) =
      .ok ([0, 0, 0, 0], { version := toI32 (leWord 7 0 0 0), chunks := [] }) :=
  c4_unknown_tag_stops 7 0 0 0 [0, 0, 0, 0] (by decide)

/-! ## Claim C5 -/

/-- C5: any input that does not begin with the 4 magic bytes `GOX `
    (including inputs shorter than 4 bytes) makes the top-level decode fail
    with the tag (bad magic) error at offset 0, producing no document. -/
theorem c5_bad_magic (input : Input) (h : input.take 4 ≠ strBytes "GOX ") :
    parse input = .error ⟨input, .tag⟩ := by
  have ht : tag (strBytes "GOX ") input = .error ⟨input, .tag⟩ := tag_err h
  simp only [parse, map, preceded, ht]

/-- C5 (witness): a short input without the magic fails with the tag error. -/
theorem c5_witness : parse [1, 2, 3] = .error ⟨[1, 2, 3], .tag⟩ :=
  c5_bad_magic [1, 2, 3] (by decide)

/-! ## Claim C6 -/

/-- C6: an input that is exactly `GOX ` plus four version bytes decodes
    successfully to a document whose version is the little-endian two's
    complement signed value of those bytes, with an empty chunk list and
    nothing left over. -/
theorem c6_header_only (v0 v1 v2 v3 : Nat) (_h0 : v0 < 256) (_h1 : v1 < 256)
    (_h2 : v2 < 256) (_h3 : v3 < 256) :
    parse (strBytes "GOX " ++ [v0, v1, v2, v3]) =
      .ok ([],
        { version :=
            if v0 + 256 * v1 + 65536 * v2 + 16777216 * v3 < 2147483648 then
              (↑(v0 + 256 * v1 + 65536 * v2 + 16777216 * v3) : Int)
            else ↑(v0 + 256 * v1 + 65536 * v2 + 16777216 * v3) - 4294967296,
          chunks := [] }) := rfl

/-- C6 (witness): a version with the sign bit set decodes to a negative
    version number. -/
theorem c6_witness :
    parse (strBytes "GOX " ++ [1, 0, 0, 128]) =
      .ok ([], { version := -2147483647, chunks := [] }) := by
  have h := c6_header_only 1 0 0 128 (by decide) (by decide) (by decide)
    (by decide)
  rw [h]
  norm_num

/-! ## Claims C3 and C7: the dictionary fold -/

theorem dinsert_ne_nil (m : Dict) (k : String) (v : Input) :
    dinsert m k v ≠ [] := by
  unfold dinsert
  split
  · intro hc
    rename_i hany
    rw [List.map_eq_nil_iff.mp hc] at hany
    simp at hany
  · simp

/-- Any property of the accumulator preserved by the folding function holds
    for the result of the fold loop. -/
theorem foldMany1Go_inv {f : Parser α} {g : β → α → β} {P : β → Prop}
    (hg : ∀ acc a, P acc → P (g acc a)) (fuel : Nat) :
    ∀ input acc rest m, P acc →
      foldMany1Go f g fuel input acc = .ok (rest, m) → P m := by
  induction fuel with
  | zero => intro input acc rest m _ h; cases h
  | succ fuel ih =>
    intro input acc rest m hP h
    simp only [foldMany1Go] at h
    rcases hfi : f input with e | ⟨i1, a1⟩ <;> simp only [hfi] at h
    · simp only [Except.ok.injEq, Prod.mk.injEq] at h
      rw [← h.2]
      exact hP
    · split at h
      · exact ih i1 _ rest m (hg _ _ hP) h
      · cases h

/-- When the fold loop stops successfully, its leftover input is exactly the
    input of an application of `f` that failed. -/
theorem foldMany1Go_stop {f : Parser α} {g : β → α → β} (fuel : Nat) :
    ∀ input acc rest m, foldMany1Go f g fuel input acc = .ok (rest, m) →
      ∃ e, f rest = .error e := by
  induction fuel with
  | zero => intro input acc rest m h; cases h
  | succ fuel ih =>
    intro input acc rest m h
    simp only [foldMany1Go] at h
    rcases hfi : f input with e | ⟨i1, a1⟩ <;> simp only [hfi] at h
    · simp only [Except.ok.injEq, Prod.mk.injEq] at h
      rw [← h.1]
      exact ⟨e, hfi⟩
    · split at h
      · exact ih i1 _ rest m h
      · cases h

/-- C3: whenever the dictionary decoder succeeds its mapping has at least one
    entry; a failing first entry attempt makes it fail instead of returning
    an empty map. -/
theorem c3_dict_nonempty (input rest : Input) (m : Dict)
    (h : dict input = .ok (rest, m)) : m ≠ [] := by
  unfold dict fold_many1 at h
  rcases hfi : entry input with e | ⟨i1, kv⟩ <;> simp only [hfi] at h
  · cases h
  · exact foldMany1Go_inv (P := fun d => d ≠ [])
      (fun acc a _ => dinsert_ne_nil _ _ _) _ i1 _ rest m
      (dinsert_ne_nil _ _ _) h

/-- C3 (witness): the singleton dictionary produced from a concrete
    successful decode is non-empty. -/
theorem c3_witness : ([("A", ([] : Input))] : Dict) ≠ [] :=
  c3_dict_nonempty [1, 0, 0, 0, 65, 0, 0, 0, 0] [] [("A", [])] rfl

/-- C7: when the dictionary decoder succeeds, its unconsumed remainder is a
    suffix of the input that begins exactly at the first byte of the entry
    attempt that failed: the entry decoder fails on precisely that remainder,
    so the terminating bytes stay for the caller. -/
theorem c7_dict_leftover (input rest : Input) (m : Dict)
    (h : dict input = .ok (rest, m)) :
    (∃ e, entry rest = .error e) ∧ rest <:+ input := by
  refine ⟨?_, dict_ss input rest m h⟩
  unfold dict fold_many1 at h
  rcases hfi : entry input with e | ⟨i1, kv⟩ <;> simp only [hfi] at h
  · cases h
  · exact foldMany1Go_stop _ i1 _ rest m h

/-- C7 (witness): after one entry, the zero key-length sentinel bytes are
    left unconsumed and the entry decoder fails on them. -/
theorem c7_witness :
    (∃ e, entry [0, 0, 0, 0] = .error e) ∧
      ([0, 0, 0, 0] : Input) <:+ [1, 0, 0, 0, 65, 0, 0, 0, 0, 0, 0, 0, 0] :=
  c7_dict_leftover [1, 0, 0, 0, 65, 0, 0, 0, 0, 0, 0, 0, 0] [0, 0, 0, 0]
    [("A", [])] rfl

/-! ## Claim C2: the repository's own IMG fixture -/

theorem preceded_ok {p : Parser α} {q : Parser β} {input i1 : Input} {a : α}
    (h : p input = .ok (i1, a)) : preceded p q input = q i1 := by
  simp only [preceded, h]

theorem terminated_ok {p : Parser α} {q : Parser β} {input i1 i2 : Input}
    {a : α} {b : β} (hp : p input = .ok (i1, a)) (hq : q i1 = .ok (i2, b)) :
    terminated p q input = .ok (i2, a) := by
  simp only [terminated, hp, hq]

theorem map_ok {p : Parser α} {input i1 : Input} {a : α} (f : α → β)
    (h : p input = .ok (i1, a)) : map p f input = .ok (i1, f a) := by
  simp only [map, h]

theorem foldMany1Go_stop_at {f : Parser α} {g : β → α → β} {input : Input}
    {acc : β} {e : PError} (fuel : Nat) (h : f input = .error e) :
    foldMany1Go f g (fuel + 1) input acc = .ok (input, acc) := by
  simp only [foldMany1Go, h]

/-- A fold whose second iteration fails yields exactly one folded element. -/
theorem fold_many1_one {f : Parser α} {g : β → α → β} {init : β}
    {input i1 : Input} {a : α} {e : PError}
    (h1 : f input = .ok (i1, a)) (h2 : f i1 = .error e) :
    fold_many1 f init g input = .ok (i1, g init a) := by
  simp only [fold_many1, h1]
  exact foldMany1Go_stop_at _ h2

/-- On a 4-byte input an entry attempt always fails: either the key-length
    word is zero (rejected by `verify`) or it is non-zero and no key bytes
    remain. -/
theorem entry_err_word (c0 c1 c2 c3 : Nat) :
    ∃ e, entry [c0, c1, c2, c3] = .error e := by
  by_cases hn : leWord c0 c1 c2 c3 = 0
  · refine ⟨⟨[c0, c1, c2, c3], .verify⟩, ?_⟩
    simp only [entry, map, tuple2, length_data, verify, le_u32, hn]
    norm_num
  · refine ⟨⟨[], .eof⟩, ?_⟩
    have hb : (leWord c0 c1 c2 c3 != 0) = true := by simpa using hn
    simp only [entry, map, tuple2, length_data, verify, le_u32, hb, if_true,
      takeP, List.length_nil]
    rw [if_neg (by omega)]

/-- C2: the fixture input `IMG ` + size 9 + keylen 1 + key `A` + vallen 0
    followed by any four bytes decodes to the Image chunk mapping `"A"` to
    the empty value, with the four trailing bytes consumed as the ignored
    checksum and nothing left over. -/
theorem c2_img_fixture (c0 c1 c2 c3 : Nat) :
    img (strBytes "IMG " ++ [9, 0, 0, 0, 1, 0, 0, 0, 65, 0, 0, 0, 0] ++
        [c0, c1, c2, c3]) =
      .ok ([], Chunk.img [("A", [])]) := by
  obtain ⟨e, he⟩ := entry_err_word c0 c1 c2 c3
  have h1 : entry ([1, 0, 0, 0, 65, 0, 0, 0, 0] ++ [c0, c1, c2, c3]) =
      .ok ([c0, c1, c2, c3], ("A", [])) := rfl
  have hd : dict ([1, 0, 0, 0, 65, 0, 0, 0, 0] ++ [c0, c1, c2, c3]) =
      .ok ([c0, c1, c2, c3], [("A", [])]) := by
    unfold dict
    rw [fold_many1_one h1 he]
    rfl
  have hsize : le_u32 ([9, 0, 0, 0, 1, 0, 0, 0, 65, 0, 0, 0, 0] ++
      [c0, c1, c2, c3]) =
      .ok ([1, 0, 0, 0, 65, 0, 0, 0, 0] ++ [c0, c1, c2, c3], 9) := rfl
  have hbody : preceded le_u32 dict ([9, 0, 0, 0, 1, 0, 0, 0, 65, 0, 0, 0, 0] ++
      [c0, c1, c2, c3]) = .ok ([c0, c1, c2, c3], [("A", [])]) := by
    rw [preceded_ok hsize]
    exact hd
  have hpre : preceded (tag (strBytes "IMG "))
      (map (preceded le_u32 dict) (fun d => Chunk.img d))
      (strBytes "IMG " ++ ([9, 0, 0, 0, 1, 0, 0, 0, 65, 0, 0, 0, 0] ++
        [c0, c1, c2, c3])) =
      .ok ([c0, c1, c2, c3], Chunk.img [("A", [])]) := by
    rw [preceded_ok (tag_ok_append _ _)]
    exact map_ok _ hbody
  have hcrc : le_u32 [c0, c1, c2, c3] = .ok ([], leWord c0 c1 c2 c3) := rfl
  rw [List.append_assoc]
  unfold img chunk_common
  exact terminated_ok hpre hcrc

/-! ## Claim C8: layer block records -/

theorem le_i32_drop {input rest : Input} {v : Int}
    (h : le_i32 input = .ok (rest, v)) :
    rest = input.drop 4 ∧ 4 ≤ input.length := by
  obtain ⟨b0, b1, b2, b3, rfl, -⟩ := le_i32_ok h
  refine ⟨rfl, ?_⟩
  simp only [List.length_cons]
  omega

theorem tuple2_drop {p : Parser α} {q : Parser β} {dp dq : Nat}
    (hp : ∀ input rest a, p input = .ok (rest, a) →
      rest = input.drop dp ∧ dp ≤ input.length)
    (hq : ∀ input rest b, q input = .ok (rest, b) →
      rest = input.drop dq ∧ dq ≤ input.length) :
    ∀ input rest ab, tuple2 p q input = .ok (rest, ab) →
      rest = input.drop (dp + dq) ∧ dp + dq ≤ input.length := by
  intro input rest ab h
  unfold tuple2 at h
  rcases hpi : p input with e | ⟨i1, a1⟩ <;> simp only [hpi] at h
  · cases h
  · rcases hqi : q i1 with e | ⟨i2, b1⟩ <;> simp only [hqi] at h
    · cases h
    · simp only [Except.ok.injEq, Prod.mk.injEq] at h
      obtain ⟨hp1, hp2⟩ := hp input i1 a1 hpi
      obtain ⟨hq1, hq2⟩ := hq i1 i2 b1 hqi
      subst hp1
      have hlen := List.length_drop dp input
      constructor
      · rw [← h.1, hq1, List.drop_drop, Nat.add_comm]
      · omega

/-- A successful block record consumes exactly 20 bytes. -/
theorem block_drop {input rest : Input} {b : Block}
    (h : block input = .ok (rest, b)) :
    rest = input.drop 20 ∧ 20 ≤ input.length := by
  unfold block map at h
  rcases h5 : tuple2 le_i32 (tuple2 le_i32 (tuple2 le_i32 (tuple2 le_i32 le_i32)))
      input with e | ⟨i5, t⟩ <;> simp only [h5] at h
  · cases h
  · simp only [Except.ok.injEq, Prod.mk.injEq] at h
    have hle : ∀ (inp rs : Input) (v : Int), le_i32 inp = .ok (rs, v) →
        rs = inp.drop 4 ∧ 4 ≤ inp.length := fun _ _ _ hh => le_i32_drop hh
    have hdrop := tuple2_drop hle (tuple2_drop hle (tuple2_drop hle
      (tuple2_drop hle hle))) input i5 t h5
    rw [← h.1]
    simpa using hdrop

/-- The `length_count` loop over block records consumes exactly 20 bytes per
    record. -/
theorem countGo_block_drop (n : Nat) :
    ∀ input rest bs, countGo block n input = .ok (rest, bs) →
      bs.length = n ∧ rest = input.drop (20 * n) := by
  induction n with
  | zero =>
    intro input rest bs h
    simp only [countGo, Except.ok.injEq, Prod.mk.injEq] at h
    rcases h with ⟨rfl, rfl⟩
    simp
  | succ n ih =>
    intro input rest bs h
    simp only [countGo] at h
    rcases hb : block input with e | ⟨i1, b⟩ <;> simp only [hb] at h
    · cases h
    · rcases hc : countGo block n i1 with e | ⟨i2, bs2⟩ <;> simp only [hc] at h
      · cases h
      · simp only [Except.ok.injEq, Prod.mk.injEq] at h
        rcases h with ⟨rfl, rfl⟩
        obtain ⟨hd1, hd2⟩ := block_drop hb
        obtain ⟨hl, hr⟩ := ih i1 _ _ hc
        subst hd1
        refine ⟨by simp [hl], ?_⟩
        rw [hr, List.drop_drop]
        congr 1
        ring

/-- C8: a block record decodes five consecutive little-endian 32-bit words,
    keeping the first four as signed index/x/y/z and discarding the fifth
    regardless of its value; it fails when fewer than 20 bytes remain; the
    counted block sequence used by the `LAYR` body consumes exactly 20 bytes
    per declared record, and the count itself is read as a little-endian
    32-bit word before the records. -/
theorem c8_layr_blocks :
    (∀ (a0 a1 a2 a3 b0 b1 b2 b3 d0 d1 d2 d3 e0 e1 e2 e3 f0 f1 f2 f3 : Nat)
        (rest : Input),
      block (a0 :: a1 :: a2 :: a3 :: b0 :: b1 :: b2 :: b3 :: d0 :: d1 :: d2 ::
          d3 :: e0 :: e1 :: e2 :: e3 :: f0 :: f1 :: f2 :: f3 :: rest) =
        .ok (rest,
          { index := toI32 (leWord a0 a1 a2 a3)
            x := toI32 (leWord b0 b1 b2 b3)
            y := toI32 (leWord d0 d1 d2 d3)
            z := toI32 (leWord e0 e1 e2 e3) })) ∧
    (∀ input : Input, input.length < 20 → ∃ e, block input = .error e) ∧
    (∀ (n : Nat) (input rest : Input) (bs : List Block),
      countGo block n input = .ok (rest, bs) →
      bs.length = n ∧ rest = input.drop (20 * n)) ∧
    (∀ (k0 k1 k2 k3 : Nat) (t : Input),
      length_count le_u32 block (k0 :: k1 :: k2 :: k3 :: t) =
        countGo block (leWord k0 k1 k2 k3) t) := by
  refine ⟨fun _ _ _ _ _ _ _ _ _ _ _ _ _ _ _ _ _ _ _ _ _ => rfl, ?_, ?_, ?_⟩
  · intro input hlen
    rcases hb : block input with e | ⟨rest, b⟩
    · exact ⟨e, rfl⟩
    · exact absurd (block_drop hb).2 (by omega)
  · exact fun n => countGo_block_drop n
  · intro k0 k1 k2 k3 t
    rfl

/-- C8 (witness): two zero blocks with a junk fifth word and leftover, plus a
    too-short input. -/
theorem c8_witness :
    (block (1 :: 0 :: 0 :: 0 :: 2 :: 0 :: 0 :: 0 :: 3 :: 0 :: 0 :: 0 :: 4 ::
        0 :: 0 :: 0 :: 99 :: 9 :: 9 :: 9 :: [5, 5]) =
      .ok ([5, 5],
        { index := toI32 (leWord 1 0 0 0), x := toI32 (leWord 2 0 0 0)
          y := toI32 (leWord 3 0 0 0), z := toI32 (leWord 4 0 0 0) })) ∧
    (∃ e, block [1, 2, 3] = .error e) ∧
    ([({ index := 0, x := 0, y := 0, z := 0 } : Block)].length = 1 ∧
      ([5] : Input) = (List.replicate 20 0 ++ [5]).drop (20 * 1)) :=
  ⟨c8_layr_blocks.1 1 0 0 0 2 0 0 0 3 0 0 0 4 0 0 0 99 9 9 9 [5, 5],
   c8_layr_blocks.2.1 [1, 2, 3] (by decide),
   c8_layr_blocks.2.2.1 1 (List.replicate 20 0 ++ [5]) [5]
     [{ index := 0, x := 0, y := 0, z := 0 }] (by rfl)⟩

/-! ## Claim C9: truncation of length-prefixed encodings -/

theorem takeP_ok_of_le {n : Nat} {input : Input} (h : n ≤ input.length) :
    takeP n input = .ok (input.drop n, input.take n) := by
  unfold takeP
  rw [if_pos h]

theorem le_u32_cons (b0 b1 b2 b3 : Nat) (rest : Input) :
    le_u32 (b0 :: b1 :: b2 :: b3 :: rest) = .ok (rest, leWord b0 b1 b2 b3) := rfl

/-- Shape of a successful length-prefixed blob read. -/
theorem ld_le_u32_ok {w rest d : Input}
    (h : length_data le_u32 w = .ok (rest, d)) :
    ∃ b0 b1 b2 b3 t, w = b0 :: b1 :: b2 :: b3 :: t ∧
      leWord b0 b1 b2 b3 ≤ t.length ∧ rest = t.drop (leWord b0 b1 b2 b3) := by
  unfold length_data at h
  rcases hu : le_u32 w with e | ⟨i1, n⟩ <;> simp only [hu] at h
  · cases h
  · obtain ⟨b0, b1, b2, b3, rfl, rfl⟩ := le_u32_ok hu
    obtain ⟨hle, hrest, -⟩ := takeP_ok h
    exact ⟨b0, b1, b2, b3, i1, rfl, hle, hrest⟩

/-- Truncating a fully-consumed length-prefixed blob always fails. -/
theorem blob_trunc {w d : Input} (h : length_data le_u32 w = .ok ([], d)) :
    ∀ k, k < w.length → ∃ e, length_data le_u32 (w.take k) = .error e := by
  obtain ⟨b0, b1, b2, b3, t, rfl, hle, hrest⟩ := ld_le_u32_ok h
  have htn : t.length ≤ leWord b0 b1 b2 b3 :=
    List.drop_eq_nil_iff.mp hrest.symm
  intro k hk
  simp only [List.length_cons] at hk
  by_cases hk4 : k < 4
  · refine ⟨⟨(b0 :: b1 :: b2 :: b3 :: t).take k, .eof⟩, ?_⟩
    have hlen : ((b0 :: b1 :: b2 :: b3 :: t).take k).length < 4 := by
      simp only [List.length_take, List.length_cons]
      omega
    simp only [length_data, le_u32_err hlen]
  · obtain ⟨k', rfl⟩ : ∃ k', k = k' + 4 := ⟨k - 4, by omega⟩
    have htake : (b0 :: b1 :: b2 :: b3 :: t).take (k' + 4) =
        b0 :: b1 :: b2 :: b3 :: t.take k' := by
      rw [show k' + 4 = k' + 3 + 1 from rfl, List.take_succ_cons,
        show k' + 3 = k' + 2 + 1 from rfl, List.take_succ_cons,
        show k' + 2 = k' + 1 + 1 from rfl, List.take_succ_cons,
        List.take_succ_cons]
    refine ⟨⟨t.take k', .eof⟩, ?_⟩
    rw [htake]
    have hlt : (t.take k').length < leWord b0 b1 b2 b3 := by
      simp only [List.length_take]
      omega
    simp only [length_data, le_u32_cons, takeP_err hlt]

/-- Shape of a successful entry: non-zero key length, enough key bytes, a
    value length word, and enough value bytes. -/
theorem entry_ok_elim {w rest : Input} {kv : String × Input}
    (h : entry w = .ok (rest, kv)) :
    ∃ a0 a1 a2 a3 t1, w = a0 :: a1 :: a2 :: a3 :: t1 ∧
      leWord a0 a1 a2 a3 ≠ 0 ∧ leWord a0 a1 a2 a3 ≤ t1.length ∧
      ∃ b0 b1 b2 b3 t2,
        t1.drop (leWord a0 a1 a2 a3) = b0 :: b1 :: b2 :: b3 :: t2 ∧
        leWord b0 b1 b2 b3 ≤ t2.length ∧
        rest = t2.drop (leWord b0 b1 b2 b3) := by
  simp only [entry, map, tuple2, length_data, verify] at h
  rcases hu : le_u32 w with e | ⟨i1, n⟩ <;> simp only [hu] at h
  · cases h
  · by_cases hne : n = 0
    · simp [hne] at h
    · have hb : (n != 0) = true := by simpa using hne
      simp only [hb, if_true] at h
      rcases ht : takeP n i1 with e | ⟨i2, key⟩ <;> simp only [ht] at h
      · cases h
      · rcases hu2 : le_u32 i2 with e | ⟨i3, n2⟩ <;> simp only [hu2] at h
        · cases h
        · rcases ht2 : takeP n2 i3 with e | ⟨i4, val⟩ <;> simp only [ht2] at h
          · cases h
          · simp only [Except.ok.injEq, Prod.mk.injEq] at h
            obtain ⟨a0, a1, a2, a3, rfl, rfl⟩ := le_u32_ok hu
            obtain ⟨hle1, hi2, -⟩ := takeP_ok ht
            obtain ⟨b0, b1, b2, b3, hi2eq, rfl⟩ := le_u32_ok hu2
            obtain ⟨hle2, hi4, -⟩ := takeP_ok ht2
            refine ⟨a0, a1, a2, a3, i1, rfl, hne, hle1,
              b0, b1, b2, b3, i3, ?_, hle2, ?_⟩
            · rw [← hi2]
              exact hi2eq
            · rw [← h.1]
              exact hi4

/-- An entry attempt fails when the declared key length exceeds the
    remaining bytes. -/
theorem entry_fail_key {a0 a1 a2 a3 : Nat} {X : Input}
    (hne : leWord a0 a1 a2 a3 ≠ 0) (hlen : X.length < leWord a0 a1 a2 a3) :
    ∃ e, entry (a0 :: a1 :: a2 :: a3 :: X) = .error e := by
  have hb : (leWord a0 a1 a2 a3 != 0) = true := by simpa using hne
  refine ⟨⟨X, .eof⟩, ?_⟩
  simp only [entry, map, tuple2, length_data, verify, le_u32_cons, hb, if_true,
    takeP_err hlen]

/-- An entry attempt fails when fewer than 4 bytes remain for the value
    length word after the key. -/
theorem entry_fail_vallen {a0 a1 a2 a3 : Nat} {X : Input}
    (hne : leWord a0 a1 a2 a3 ≠ 0) (hge : leWord a0 a1 a2 a3 ≤ X.length)
    (hshort : (X.drop (leWord a0 a1 a2 a3)).length < 4) :
    ∃ e, entry (a0 :: a1 :: a2 :: a3 :: X) = .error e := by
  have hb : (leWord a0 a1 a2 a3 != 0) = true := by simpa using hne
  refine ⟨⟨X.drop (leWord a0 a1 a2 a3), .eof⟩, ?_⟩
  simp only [entry, map, tuple2, length_data, verify, le_u32_cons, hb, if_true,
    takeP_ok_of_le hge, le_u32_err hshort]

/-- An entry attempt fails when the declared value length exceeds the
    remaining bytes. -/
theorem entry_fail_val {a0 a1 a2 a3 b0 b1 b2 b3 : Nat} {X Y : Input}
    (hne : leWord a0 a1 a2 a3 ≠ 0) (hge : leWord a0 a1 a2 a3 ≤ X.length)
    (hdropX : X.drop (leWord a0 a1 a2 a3) = b0 :: b1 :: b2 :: b3 :: Y)
    (hshort : Y.length < leWord b0 b1 b2 b3) :
    ∃ e, entry (a0 :: a1 :: a2 :: a3 :: X) = .error e := by
  have hb : (leWord a0 a1 a2 a3 != 0) = true := by simpa using hne
  refine ⟨⟨Y, .eof⟩, ?_⟩
  simp only [entry, map, tuple2, length_data, verify, le_u32_cons, hb, if_true,
    takeP_ok_of_le hge, hdropX, takeP_err hshort]

/-- Truncating a fully-consumed entry always fails. -/
theorem entry_trunc {w : Input} {kv : String × Input}
    (h : entry w = .ok ([], kv)) :
    ∀ k, k < w.length → ∃ e, entry (w.take k) = .error e := by
  obtain ⟨a0, a1, a2, a3, t1, rfl, hne, hle1,
    b0, b1, b2, b3, t2, hdrop, hle2, hrest⟩ := entry_ok_elim h
  have ht2 : t2.length ≤ leWord b0 b1 b2 b3 :=
    List.drop_eq_nil_iff.mp hrest.symm
  have ht1len : t1.length = leWord a0 a1 a2 a3 + 4 + t2.length := by
    have hd := congrArg List.length hdrop
    rw [List.length_drop] at hd
    simp only [List.length_cons] at hd
    omega
  intro k hk
  simp only [List.length_cons] at hk
  by_cases hk4 : k < 4
  · refine ⟨⟨(a0 :: a1 :: a2 :: a3 :: t1).take k, .eof⟩, ?_⟩
    have hlen : ((a0 :: a1 :: a2 :: a3 :: t1).take k).length < 4 := by
      simp only [List.length_take, List.length_cons]
      omega
    simp only [entry, map, tuple2, length_data, verify, le_u32_err hlen]
  · obtain ⟨k', rfl⟩ : ∃ k', k = k' + 4 := ⟨k - 4, by omega⟩
    have htake : (a0 :: a1 :: a2 :: a3 :: t1).take (k' + 4) =
        a0 :: a1 :: a2 :: a3 :: t1.take k' := by
      rw [show k' + 4 = k' + 3 + 1 from rfl, List.take_succ_cons,
        show k' + 3 = k' + 2 + 1 from rfl, List.take_succ_cons,
        show k' + 2 = k' + 1 + 1 from rfl, List.take_succ_cons,
        List.take_succ_cons]
    rw [htake]
    have hk't1 : k' < t1.length := by omega
    have hlentake : (t1.take k').length = k' := by
      simp only [List.length_take]
      omega
    by_cases hkn1 : k' < leWord a0 a1 a2 a3
    · apply entry_fail_key hne
      rw [hlentake]
      exact hkn1
    · have hdroptake : (t1.take k').drop (leWord a0 a1 a2 a3) =
          (b0 :: b1 :: b2 :: b3 :: t2).take (k' - leWord a0 a1 a2 a3) := by
        rw [List.drop_take, hdrop]
      by_cases hm4 : k' - leWord a0 a1 a2 a3 < 4
      · apply entry_fail_vallen hne
        · rw [hlentake]
          omega
        · rw [hdroptake]
          simp only [List.length_take, List.length_cons]
          omega
      · obtain ⟨m', hm'⟩ : ∃ m', k' - leWord a0 a1 a2 a3 = m' + 4 :=
          ⟨k' - leWord a0 a1 a2 a3 - 4, by omega⟩
        have htake2 : (b0 :: b1 :: b2 :: b3 :: t2).take (m' + 4) =
            b0 :: b1 :: b2 :: b3 :: t2.take m' := by
          rw [show m' + 4 = m' + 3 + 1 from rfl, List.take_succ_cons,
            show m' + 3 = m' + 2 + 1 from rfl, List.take_succ_cons,
            show m' + 2 = m' + 1 + 1 from rfl, List.take_succ_cons,
            List.take_succ_cons]
        apply entry_fail_val hne (by rw [hlentake]; omega)
          (by rw [hdroptake, hm', htake2])
        have hm't2 : m' < t2.length := by omega
        simp only [List.length_take]
        omega

/-- C9: a well-formed (fully consumed) length-prefixed blob — as in the
    Preview body — or key-value entry fails to decode on every strict prefix
    obtained by removing trailing bytes: the decoders never succeed with
    fewer bytes than the declared length fields promised. -/
theorem c9_truncation :
    (∀ (w d : Input), length_data le_u32 w = .ok ([], d) →
      ∀ k, k < w.length → ∃ e, length_data le_u32 (w.take k) = .error e) ∧
    (∀ (w : Input) (kv : String × Input), entry w = .ok ([], kv) →
      ∀ k, k < w.length → ∃ e, entry (w.take k) = .error e) :=
  ⟨fun _ _ h => blob_trunc h, fun _ _ h => entry_trunc h⟩

/-- C9 (witness): truncations of concrete well-formed blob and entry fail. -/
theorem c9_witness :
    (∃ e, length_data le_u32 (([1, 0, 0, 0, 65] : Input).take 2) = .error e) ∧
    (∃ e, entry (([1, 0, 0, 0, 65, 0, 0, 0, 0] : Input).take 6) = .error e) :=
  ⟨c9_truncation.1 [1, 0, 0, 0, 65] [65] rfl 2 (by decide),
   c9_truncation.2 [1, 0, 0, 0, 65, 0, 0, 0, 0] ("A", []) rfl 6 (by decide)⟩

/-! ## Claim C10 -/

/-- C10: the top-level decode is a total function of the byte buffer: on
    every input it returns either a parse error or a success, and on success
    the unconsumed remainder is a suffix of the input, so the decoder only
    ever advances forward within the supplied buffer. -/
theorem c10_total_and_bounded (input : Input) :
    (∃ e, parse input = .error e) ∨
      ∃ rest doc, parse input = .ok (rest, doc) ∧ rest <:+ input := by
  rcases h : parse input with e | ⟨rest, doc⟩
  · exact .inl ⟨e, rfl⟩
  · exact .inr ⟨rest, doc, rfl, parse_ss input rest doc h⟩

end Gox
